import Mathlib

set_option maxRecDepth 8000

/-! Shallow embedding of the LearnSpere quiz-normalization pipeline
(`src/utils/quiz_utils.py`) and the code-sanitization pipeline
(`src/utils/code_executor.py`).  Python strings are modelled as `List Char`;
Python's `ast.parse` is an external collaborator and is abstracted as a
parameter of type `List Char → ParseRes` (with a concrete executable model
`astParses` for the Python fragment appearing in concrete scenarios). -/

/-- Python whitespace as used by `str.strip()` / `str.isspace()`, restricted to
the ASCII range that occurs in this development. -/
def pyWs (c : Char) : Bool :=
  c == ' ' || c == '\t' || c == '\n' || c == '\r' || c == '\x0b' || c == '\x0c'

/-- The UTF-8 byte-order mark, stripped explicitly by `sanitize_code` via
`lstrip(chr(0xfeff))`; it is not Python whitespace. -/
def isBom (c : Char) : Bool := c == '﻿'

def wsOrBom (c : Char) : Bool := pyWs c || isBom c

/-- `str.lstrip()` with no argument. -/
def lstripWs (l : List Char) : List Char := l.dropWhile pyWs

/-- `str.rstrip()` with no argument. -/
def rstripWs (l : List Char) : List Char := (l.reverse.dropWhile pyWs).reverse

/-- `str.strip()` with no argument. -/
def stripWs (l : List Char) : List Char := rstripWs (lstripWs l)

/-- `str.lstrip('﻿')`. -/
def lstripBom (l : List Char) : List Char := l.dropWhile isBom

/-- `str.replace('\r\n', '\n')` (left-to-right, non-overlapping). -/
def crlf : List Char → List Char
  | [] => []
  | '\r' :: '\n' :: t => '\n' :: crlf t
  | c :: t => c :: crlf t

/-- `str.split(sep)` for a single-character separator: always returns at least
one piece, and a trailing separator yields a trailing empty piece, exactly as
in Python. -/
def splitCh (sep : Char) : List Char → List (List Char)
  | [] => [[]]
  | c :: t =>
    if c = sep then [] :: splitCh sep t
    else
      match splitCh sep t with
      | [] => [[c]]
      | h :: r => (c :: h) :: r

/-- `str.split('\n')`. -/
def splitNl (l : List Char) : List (List Char) := splitCh '\n' l

/-- `'\n'.join(lines)`. -/
def intercalateNl : List (List Char) → List Char
  | [] => []
  | [a] => a
  | a :: t => a ++ '\n' :: intercalateNl t

/-- ASCII `str.lower()` on one character. -/
def pyLowerCh (c : Char) : Char :=
  if 'A' ≤ c ∧ c ≤ 'Z' then Char.ofNat (c.toNat + 32) else c

/-- ASCII `str.upper()` on one character. -/
def pyUpperCh (c : Char) : Char :=
  if 'a' ≤ c ∧ c ≤ 'z' then Char.ofNat (c.toNat - 32) else c

def lowerStr (l : List Char) : List Char := l.map pyLowerCh

def upperStr (l : List Char) : List Char := l.map pyUpperCh

/-- `line.startswith(tuple_of_strings)`. -/
def startsAny (pres : List (List Char)) (l : List Char) : Bool :=
  pres.any (fun p => p.isPrefixOf l)

def isDigitCh (c : Char) : Bool := '0' ≤ c && c ≤ '9'

/-- `s.isdigit()` on the ASCII range: non-empty and all digits. -/
def pyIsDigitStr (l : List Char) : Bool := !l.isEmpty && l.all isDigitCh

/-! ## Python values

A model of the values produced by `json.loads` and manipulated by the quiz
pipeline (floats omitted: no claim depends on them). -/

inductive PyVal where
  | pstr : List Char → PyVal
  | pint : Int → PyVal
  | pbool : Bool → PyVal
  | pnone : PyVal
  | plist : List PyVal → PyVal
  | pdict : List (List Char × PyVal) → PyVal

/-- Python truthiness (`if x:`). -/
def pyTruthy : PyVal → Bool
  | .pstr s => !s.isEmpty
  | .pint n => n != 0
  | .pbool b => b
  | .pnone => false
  | .plist l => !l.isEmpty
  | .pdict d => !d.isEmpty

/-- `dict.get(k)`: Python's dict lookup preserves the first (unique) binding;
insertion-ordered association list model. -/
def dget (d : List (List Char × PyVal)) (k : List Char) : Option PyVal :=
  (d.find? (fun p => p.1 == k)).map (fun p => p.2)

/-- `dict.get(k, default)`. -/
def dgetD (d : List (List Char × PyVal)) (k : List Char) (v : PyVal) : PyVal :=
  (dget d k).getD v

/-- `d[k] = v`: replace an existing binding in place, else append. -/
def dsetKey (d : List (List Char × PyVal)) (k : List Char) (v : PyVal) :
    List (List Char × PyVal) :=
  match d with
  | [] => [(k, v)]
  | (k', v') :: t => if k' == k then (k', v) :: t else (k', v') :: dsetKey t k v

/-- `dict.setdefault(k, v)`. -/
def dsetdefault (d : List (List Char × PyVal)) (k : List Char) (v : PyVal) :
    List (List Char × PyVal) :=
  if (dget d k).isSome then d else d ++ [(k, v)]

/-- `str(x)` for the values reaching the quiz normalizer.  Container
renderings are abbreviated (only their non-emptiness matters anywhere in the
pipeline). -/
def pyStr : PyVal → List Char
  | .pstr s => s
  | .pint n => (toString n).data
  | .pbool b => if b then "True".data else "False".data
  | .pnone => "None".data
  | .plist _ => "[...]".data
  | .pdict _ => "\x7b...\x7d".data

/-- `int(s)` for a string: optional sign and decimal digits, surrounded by
optional whitespace; `none` models a raised `ValueError`. -/
def pyIntParse (s : List Char) : Option Int :=
  let t := stripWs s
  let core : Option (Bool × List Char) :=
    match t with
    | '-' :: r => some (true, r)
    | '+' :: r => some (false, r)
    | r => some (false, r)
  match core with
  | some (neg, ds) =>
    if !ds.isEmpty && ds.all isDigitCh then
      let n : Nat := ds.foldl (fun a c => a * 10 + (c.toNat - 48)) 0
      some (if neg then -(n : Int) else (n : Int))
    else none
  | none => none

/-- `int(x)` on a Python value; `none` models a raised exception.
Python `bool` is an `int` subclass. -/
def pyToInt : PyVal → Option Int
  | .pint n => some n
  | .pbool b => some (if b then 1 else 0)
  | .pstr s => pyIntParse s
  | _ => none

/-! ## `QuizSystem._normalize_quiz_data` -/

structure NormQ where
  question : List Char
  options : List (List Char)
  correct : Int
  explanation : List Char
deriving DecidableEq

/-- The option-cleaning comprehension
`[str(o).strip() for o in options if str(o).strip()]` applied to
`q.get("options", [])` after the `isinstance(options, list)` guard. -/
def cleanOptions (v : PyVal) : List (List Char) :=
  match v with
  | .plist l => (l.map (fun o => stripWs (pyStr o))).filter (fun o => !o.isEmpty)
  | _ => []

/-- The `letter_to_index` table lookup on an exact key. -/
def letterIndex (s : List Char) : Option Int :=
  if s == "A".data then some 0
  else if s == "B".data then some 1
  else if s == "C".data then some 2
  else if s == "D".data then some 3
  else none

/-- The string branch of the `correct` coercion: exact-letter lookup, falling
back to `letter_to_index.get(correct_clean[:1], 0)`. -/
def coerceCorrectStr (s : List Char) : Int :=
  let c := upperStr (stripWs s)
  match letterIndex c with
  | some i => i
  | none => (letterIndex (c.take 1)).getD 0

/-- Normalization of one candidate question dict (the body of the `for q in
questions` loop); `none` models `continue` (the question is dropped). -/
def normQ (d : List (List Char × PyVal)) : Option NormQ :=
  let qText := stripWs (pyStr (dgetD d "question".data (.pstr [])))
  let options := cleanOptions (dgetD d "options".data (.plist []))
  if options.length < 4 then none
  else
    let options4 := options.take 4
    let correct0 := dgetD d "correct".data (.pint 0)
    let correct1 : PyVal :=
      match correct0 with
      | .pstr s => .pint (coerceCorrectStr s)
      | v => v
    let correctInt := (pyToInt correct1).getD 0
    let correctClamped := if correctInt < 0 || 3 < correctInt then 0 else correctInt
    let expl := stripWs (pyStr (dgetD d "explanation".data (.pstr [])))
    some { question := qText, options := options4, correct := correctClamped,
           explanation := if expl.isEmpty then "Generated explanation".data else expl }

/-- The question loop: non-dict entries are skipped, dropped questions are
skipped, surviving questions are appended in order. -/
def normQuestions : List PyVal → List NormQ
  | [] => []
  | q :: t =>
    match q with
    | .pdict d =>
      match normQ d with
      | some r => r :: normQuestions t
      | none => normQuestions t
    | _ => normQuestions t

/-- Re-encoding of a normalized question as the dict the code appends. -/
def encodeQ (r : NormQ) : PyVal :=
  .pdict [("question".data, .pstr r.question),
          ("options".data, .plist (r.options.map .pstr)),
          ("correct".data, .pint r.correct),
          ("explanation".data, .pstr r.explanation)]

/-- `QuizSystem._normalize_quiz_data`. -/
def normalize_quiz_data (qd : PyVal) (topic difficulty : List Char) : PyVal :=
  let d0 := match qd with | .pdict d => d | _ => []
  let d1 := dsetdefault d0 "topic".data (.pstr topic)
  let d2 := dsetdefault d1 "difficulty".data (.pstr difficulty)
  let questions :=
    match dget d2 "questions".data with
    | some (.plist l) => l
    | _ => []
  .pdict (dsetKey d2 "questions".data (.plist ((normQuestions questions).map encodeQ)))

/-! ## `QuizSystem._extract_json_from_text` -/

def lbrace : Char := '\x7b'
def rbrace : Char := '\x7d'

/-- `str.splitlines()` for the line terminators `\r\n`, `\n`, `\r`: unlike
`split('\n')`, a trailing terminator produces no trailing empty line. -/
def slAux (cur : List Char) : List Char → List (List Char)
  | [] => [cur.reverse]
  | '\r' :: '\n' :: t => cur.reverse :: (if t.isEmpty then [] else slAux [] t)
  | '\n' :: t => cur.reverse :: (if t.isEmpty then [] else slAux [] t)
  | '\r' :: t => cur.reverse :: (if t.isEmpty then [] else slAux [] t)
  | c :: t => slAux (c :: cur) t

def pySplitlines (l : List Char) : List (List Char) :=
  if l.isEmpty then [] else slAux [] l

/-- `QuizSystem._extract_json_from_text`. -/
def extract_json_from_text (text : List Char) : Option (List Char) :=
  if text.isEmpty then none
  else
    let cleaned0 := stripWs text
    let cleaned :=
      if ("```".data).isPrefixOf cleaned0 then
        let ls0 := (pySplitlines cleaned0).drop 1
        let ls1 :=
          match ls0.getLast? with
          | some last =>
            if ("```".data).isPrefixOf (stripWs last) then ls0.dropLast else ls0
          | none => ls0
        stripWs (intercalateNl ls1)
      else cleaned0
    match cleaned.findIdx? (· == lbrace), cleaned.reverse.findIdx? (· == rbrace) with
    | some start, some rIdx =>
      let stop := cleaned.length - 1 - rIdx
      if stop ≤ start then none
      else some ((cleaned.drop start).take (stop + 1 - start))
    | _, _ => none

/-! ## `QuizSystem._parse_quiz_response` (the fallback line parser) -/

/-- Evaluation of the question-start condition
`((line[:2].isdigit() and line[1] in ['.', ')']) or line.lower().startswith('q1') or
... or line.lower().startswith('q5')) and '?' in line`
in Python's left-to-right short-circuit order.  `Except.error` models the
`IndexError` raised by `line[1]` when `line` is a single digit character. -/
def qTokenCheck (line : List Char) : Bool :=
  startsAny ["q1".data, "q2".data, "q3".data, "q4".data, "q5".data] (lowerStr line)

def qStartEval (line : List Char) : Except Unit Bool :=
  if pyIsDigitStr (line.take 2) then
    match line.drop 1 with
    | [] => .error ()
    | c :: _ =>
      if c == '.' || c == ')' then .ok (line.contains '?')
      else .ok (qTokenCheck line && line.contains '?')
  else .ok (qTokenCheck line && line.contains '?')

structure CurQ where
  question : List Char
  options : List (List Char)
  correct : List Char
  explanation : List Char

def curToVal (c : CurQ) : PyVal :=
  .pdict [("question".data, .pstr c.question),
          ("options".data, .plist (c.options.map .pstr)),
          ("correct".data, .pstr c.correct),
          ("explanation".data, .pstr c.explanation)]

/-- `line.split('.', 1)[1].strip() if '.' in line else line`. -/
def afterFirstDot (line : List Char) : List Char :=
  if line.contains '.' then stripWs ((line.dropWhile (· ≠ '.')).drop 1) else line

/-- `line.split(':', 1)`: `some` of the stripped tail when a colon is present. -/
def afterColon (line : List Char) : Option (List Char) :=
  if line.contains ':' then some (stripWs ((line.dropWhile (· ≠ ':')).drop 1)) else none

def optionMarkers : List (List Char) := ["A)".data, "B)".data, "C)".data, "D)".data]

def parseStep : List (List Char) → Option CurQ → List PyVal → Except Unit (List PyVal)
  | [], cur, acc =>
    .ok (match cur with | some c => acc ++ [curToVal c] | none => acc)
  | l :: t, cur, acc =>
    let line := stripWs l
    match qStartEval line with
    | .error e => .error e
    | .ok isStart =>
      if isStart then
        let acc' := match cur with | some c => acc ++ [curToVal c] | none => acc
        parseStep t (some { question := afterFirstDot line, options := [],
                            correct := "A".data,
                            explanation := "Generated explanation".data }) acc'
      else
        match cur with
        | none => parseStep t none acc
        | some c =>
          if startsAny optionMarkers line then
            parseStep t (some { c with options := c.options ++ [line] }) acc
          else if ("correct".data).isPrefixOf (lowerStr line) then
            match afterColon line with
            | some v => parseStep t (some { c with correct := v }) acc
            | none => parseStep t (some c) acc
          else if ("explanation".data).isPrefixOf (lowerStr line) then
            match afterColon line with
            | some v => parseStep t (some { c with explanation := v }) acc
            | none => parseStep t (some c) acc
          else parseStep t (some c) acc

/-- `QuizSystem._parse_quiz_response`: `Except.error` models the `IndexError`
escaping the loop. -/
def parse_quiz_response (response topic difficulty : List Char) :
    Except Unit PyVal :=
  match parseStep (splitNl response) none [] with
  | .error e => .error e
  | .ok qs =>
    .ok (.pdict [("topic".data, .pstr topic),
                 ("difficulty".data, .pstr difficulty),
                 ("questions".data, .plist (qs.take 5))])

/-! ## `QuizSystem.generate_realtime_quiz` (post-model-response part) -/

/-- The hard-fallback quiz dict built inline in `generate_realtime_quiz`. -/
def fallbackQuizDict (topic difficulty : List Char) : PyVal :=
  .pdict [("topic".data, .pstr topic),
          ("difficulty".data, .pstr difficulty),
          ("questions".data, .plist [
            .pdict [
              ("question".data,
               .pstr ("Which statement best describes ".data ++ topic ++ "?".data)),
              ("options".data, .plist [
                .pstr "It is a supervised learning concept".data,
                .pstr "It is an unsupervised learning concept".data,
                .pstr "It is only used for data visualization".data,
                .pstr "It is unrelated to machine learning".data]),
              ("correct".data, .pint 0),
              ("explanation".data,
               .pstr (topic ++ " is commonly taught as part of supervised/ML fundamentals depending on context.".data))]])]

/-- The questions list of a quiz dict (empty for anything malformed). -/
def getQuestions (qd : PyVal) : List PyVal :=
  match qd with
  | .pdict d =>
    match dget d "questions".data with
    | some (.plist l) => l
    | _ => []
  | _ => []

/-- The `if not quiz_data.get("questions")` hard-fallback step. -/
def postNormalize (qd : PyVal) (topic difficulty : List Char) : PyVal :=
  let qsVal := match qd with | .pdict d => dgetD d "questions".data .pnone | _ => .pnone
  if pyTruthy qsVal then qd
  else normalize_quiz_data (fallbackQuizDict topic difficulty) topic difficulty

/-- The extraction/parse/normalize/fallback chain of `generate_realtime_quiz`,
from the model response onward.  `loads` abstracts `json.loads` (`none` models
a raised decode error); `Except.error` models the uncaught `IndexError` from
the fallback line parser, which the route-level `except` turns into a
`{"success": False}` reply carrying no quiz. -/
def generateQuizData (loads : List Char → Option PyVal)
    (response topic difficulty : List Char) : Except Unit PyVal :=
  let parsed : Option PyVal :=
    match extract_json_from_text response with
    | some e => if e.isEmpty then none else loads e
    | none => none
  let viaJson : Option PyVal :=
    match parsed with
    | some v => if pyTruthy v then some v else none
    | none => none
  match viaJson with
  | some v => .ok (postNormalize (normalize_quiz_data v topic difficulty) topic difficulty)
  | none =>
    match parse_quiz_response response topic difficulty with
    | .error e => .error e
    | .ok v => .ok (postNormalize (normalize_quiz_data v topic difficulty) topic difficulty)

/-! ## Quiz store (`_store_generated_quiz` / `get_quiz`) -/

structure StoreResult where
  quizId : List Char
  storedQuiz : PyVal
  state : List (List Char × PyVal)

/-- `QuizSystem._store_generated_quiz`, with the `uuid.uuid4().hex` token as a
parameter and the best-effort `json.dump` persistence (caught and ignored)
omitted from the functional state. -/
def store_generated_quiz (st : List (List Char × PyVal)) (quizData : PyVal)
    (uuidHex : List Char) : StoreResult :=
  let quizId := "gen_".data ++ uuidHex
  let d := match quizData with | .pdict d => d | _ => []
  let stored := PyVal.pdict (dsetKey d "quiz_id".data (.pstr quizId))
  { quizId := quizId, storedQuiz := stored, state := dsetKey st quizId stored }

/-- `topic.lower().replace(" ", "_")`. -/
def normTopic (topic : List Char) : List Char :=
  (lowerStr topic).map (fun c => if c == ' ' then '_' else c)

/-- `QuizSystem.get_quiz`: exact lookup of the normalized topic/identifier. -/
def get_quiz (st : List (List Char × PyVal)) (topic : List Char) : Option PyVal :=
  dget st (normTopic topic)

/-! ## `CodeExecutor.sanitize_code`

`ast.parse` is abstracted as `pyparse : List Char → ParseRes`; `synErr`
models a raised `SyntaxError`, `otherErr` any other exception. -/

inductive ParseRes where
  | ok : ParseRes
  | synErr : ParseRes
  | otherErr : ParseRes
deriving DecidableEq

/-- The fence-removal loop: a line whose stripped form starts with a triple
backtick toggles `in_fence` and is skipped; every other line is kept in both
branches. -/
def fenceScan : Bool → List (List Char) → List (List Char)
  | _, [] => []
  | inFence, l :: t =>
    if ("```".data).isPrefixOf (stripWs l) then fenceScan (!inFence) t
    else l :: fenceScan inFence t

/-- A line that is bold/italic-only (`**...**` or `*...*`). -/
def boldOnly (f : List Char) : Bool :=
  (("**".data).isPrefixOf f && List.isSuffixOf ("**".data) f) ||
  (("*".data).isPrefixOf f && List.isSuffixOf ("*".data) f)

/-- `first.lower() in ('python', 'python code', 'code')`. -/
def langTag (f : List Char) : Bool :=
  lowerStr f == "python".data || lowerStr f == "python code".data ||
  lowerStr f == "code".data

/-- The prelude-trim drop condition on the stripped first line. -/
def preludeCond (l : List Char) : Bool :=
  let f := stripWs l
  f.isEmpty || ("#".data).isPrefixOf f || boldOnly f || langTag f

/-- The `while cleaned_lines: ... pop(0)` prelude-trim loop. -/
def preludeTrim : List (List Char) → List (List Char)
  | [] => []
  | l :: t => if preludeCond l then preludeTrim t else l :: t

def sQuote : Char := Char.ofNat 39

/-- The statement-starter tuple used by the prelude seek. -/
def starters : List (List Char) :=
  ["import ".data, "from ".data, "def ".data, "class ".data, "@".data,
   "if __name__".data, "\"\"\"".data, [sQuote, sQuote, sQuote], "#!".data]

/-- The `for i, ln in enumerate(...)` scan for the first line whose lstripped
form begins with a starter (blank lines are skipped, other lines do not stop
the scan). -/
def seekIdx : Nat → List (List Char) → Option Nat
  | _, [] => none
  | i, l :: t =>
    let s := lstripWs l
    if s.isEmpty then seekIdx (i + 1) t
    else if startsAny starters s then some i
    else seekIdx (i + 1) t

def trailingMarkers : List (List Char) :=
  ["```".data, "---".data, "###".data, "##".data, "# ".data, "**".data, "*".data]

def trailingWords : List (List Char) :=
  ["explanation".data, "note".data, "notes".data, "output".data,
   "example output".data, "usage:".data]

/-- The postamble-trim drop condition on the stripped last line. -/
def postCond (l : List Char) : Bool :=
  let last := stripWs l
  last.isEmpty || startsAny trailingMarkers last ||
  startsAny trailingWords (lowerStr last)

/-- The `while cleaned_lines: ... pop()` postamble-trim loop (drop from the
end while the condition holds). -/
def postTrim (ls : List (List Char)) : List (List Char) :=
  (ls.reverse.dropWhile postCond).reverse

/-- The `for _ in range(200)` trim-and-reparse loop: the fuel argument is the
number of remaining iterations; at fuel 0 the code falls through to
`return "\n".join(cleaned_lines).strip()`. -/
def trimLoop : Nat → (List Char → ParseRes) → List (List Char) → List Char
  | 0, _, ls => stripWs (intercalateNl ls)
  | fuel + 1, pyparse, ls =>
    let candidate := stripWs (intercalateNl ls)
    if candidate.isEmpty then []
    else
      match pyparse candidate with
      | .ok => candidate
      | .otherErr => candidate
      | .synErr =>
        match ls with
        | [] => candidate
        | _ :: _ => trimLoop fuel pyparse ls.dropLast

/-- Everything `sanitize_code` does before the trim-and-reparse loop:
CRLF normalization, line split, fence removal, join + `strip()` +
`lstrip('﻿')`, prelude trim, prelude seek, postamble trim. -/
def trimReady (code : List Char) : List (List Char) :=
  let lines := splitNl (crlf code)
  let unfenced := fenceScan false lines
  let cleaned := lstripBom (stripWs (intercalateNl unfenced))
  let cleanedLines := preludeTrim (splitNl cleaned)
  let sought :=
    match seekIdx 0 cleanedLines with
    | some i => if 0 < i then cleanedLines.drop i else cleanedLines
    | none => cleanedLines
  postTrim sought

/-- `CodeExecutor.sanitize_code`, parameterized by the parser. -/
def sanitize_core (pyparse : List Char → ParseRes) (code : List Char) :
    List Char :=
  if code.isEmpty then [] else trimLoop 200 pyparse (trimReady code)

/-! ### A concrete model of `ast.parse`

`astParses` models CPython's `ast.parse` on the line-oriented Python fragment
occurring in the concrete scenarios of this development: blank lines,
comments, `import`/`from` statements, `def` headers with an indented block of
simple statements, bare identifier/number expressions and one-token
assignments.  Everything else is a `SyntaxError`. -/

def isIdentStart (c : Char) : Bool := c.isAlpha || c == '_'

def isIdentCh (c : Char) : Bool := c.isAlphanum || c == '_'

def isIdent (l : List Char) : Bool :=
  match l with
  | [] => false
  | c :: t => isIdentStart c && t.all isIdentCh

def isNatLit (l : List Char) : Bool := !l.isEmpty && l.all isDigitCh

/-- A dotted identifier path such as `os.path`. -/
def isModPath (l : List Char) : Bool :=
  !l.isEmpty && (splitCh '.' l).all isIdent

def isSimpleExpr (s : List Char) : Bool := isIdent s || isNatLit s

/-- `x = 1`-style one-token assignment. -/
def isAssign (s : List Char) : Bool :=
  match splitCh '=' s with
  | [lhs, rhs] => isIdent (stripWs lhs) && isSimpleExpr (stripWs rhs)
  | _ => false

def isTopSimpleStmt (s : List Char) : Bool := isSimpleExpr s || isAssign s

/-- The module part of an `import`/`from` line (before any dot or space). -/
def topModule (m : List Char) : List Char :=
  m.takeWhile (fun c => c ≠ '.' && c ≠ ' ' && c ≠ ',')

def isImportLine (s : List Char) : Bool :=
  ("import ".data).isPrefixOf s &&
  (splitCh ',' (s.drop 7)).all (fun piece =>
    isModPath ((splitCh ' ' (stripWs piece)).headD []))

def isFromImportLine (s : List Char) : Bool :=
  ("from ".data).isPrefixOf s &&
  isModPath ((s.drop 5).takeWhile (fun c => c ≠ ' ')) &&
  ("import ".data).isPrefixOf (lstripWs ((s.drop 5).dropWhile (fun c => c ≠ ' ')))

def indentOf (l : List Char) : Nat := (l.takeWhile (fun c => c == ' ')).length

def isBlankOrComment (l : List Char) : Bool :=
  (stripWs l).isEmpty || ("#".data).isPrefixOf (stripWs l)

def isDefHeader (s : List Char) : Bool :=
  ("def ".data).isPrefixOf s && List.isSuffixOf ":".data s &&
  s.contains '(' && s.contains ')'

def isBlockStmt (s : List Char) : Bool :=
  s == "return".data ||
  (("return ".data).isPrefixOf s && isSimpleExpr (stripWs (s.drop 7))) ||
  isTopSimpleStmt s

/-- Classification of one top-level line: `none` is a syntax error,
`some none` a complete statement, `some (some ind)` a `def` header opening an
indented block at indentation `ind`. -/
def topLineStep (l : List Char) : Option (Option Nat) :=
  let s := stripWs l
  if s.isEmpty || ("#".data).isPrefixOf s then some none
  else if indentOf l ≠ 0 then none
  else if isImportLine s || isFromImportLine s then some none
  else if isDefHeader s then some (some (indentOf l))
  else if isTopSimpleStmt s then some none
  else none

/-- Line-by-line check of the modelled fragment: the mode is `none` at top
level and `some (ind, sawStmt)` inside a `def` block opened at indentation
`ind` (a block must contain at least one statement). -/
def chkLines : Option (Nat × Bool) → List (List Char) → Bool
  | none, [] => true
  | some (_, saw), [] => saw
  | none, l :: rest =>
    match topLineStep l with
    | none => false
    | some none => chkLines none rest
    | some (some ind) => chkLines (some (ind, false)) rest
  | some (ind, saw), l :: rest =>
    if isBlankOrComment l then chkLines (some (ind, saw)) rest
    else if ind < indentOf l then
      isBlockStmt (stripWs l) && chkLines (some (ind, true)) rest
    else
      saw &&
        match topLineStep l with
        | none => false
        | some none => chkLines none rest
        | some (some ind') => chkLines (some (ind', false)) rest

/-- The concrete `ast.parse` model (see `chkLines`). -/
def astParses (code : List Char) : ParseRes :=
  if chkLines none (splitNl code) then .ok else .synErr

/-- `CodeExecutor.sanitize_code` with the concrete parser model. -/
def sanitize_code (code : List Char) : List Char := sanitize_core astParses code

/-- `CodeExecutor.validate_syntax`: re-sanitizes, then parses.  The exact
diagnostic text built from the `SyntaxError` fields is abstracted to an opaque
non-`none` message. -/
def validate_syntax (pyparse : List Char → ParseRes) (code : List Char) :
    Bool × Option (List Char) :=
  match pyparse (sanitize_core pyparse code) with
  | .ok => (true, none)
  | .synErr => (false, some ("Syntax Error".data))
  | .otherErr => (false, some ("error".data))

/-! ### `CodeExecutor.detect_dependencies` -/

/-- The fixed standard-library exclusion set. -/
def stdlibModules : List (List Char) :=
  ["os".data, "sys".data, "random".data, "math".data, "json".data,
   "collections".data, "itertools".data, "functools".data, "re".data,
   "datetime".data, "time".data, "pathlib".data, "io".data, "pickle".data,
   "csv".data, "sqlite3".data, "unittest".data, "logging".data,
   "argparse".data, "subprocess".data, "threading".data,
   "multiprocessing".data, "typing".data, "abc".data, "warnings".data,
   "traceback".data, "gc".data, "copy".data, "operator".data, "string".data,
   "textwrap".data, "struct".data, "codecs".data]

/-- The import-name to install-name mapping. -/
def depMapping : List (List Char × List Char) :=
  [("cv2".data, "opencv-python".data), ("sklearn".data, "scikit-learn".data),
   ("PIL".data, "Pillow".data), ("yaml".data, "PyYAML".data),
   ("dotenv".data, "python-dotenv".data),
   ("google".data, "google-generativeai".data), ("gtts".data, "gTTS".data),
   ("requests".data, "requests".data), ("bs4".data, "beautifulsoup4".data),
   ("flask".data, "Flask".data), ("werkzeug".data, "werkzeug".data)]

/-- `mapping.get(dep, dep)`. -/
def mapGet (m : List (List Char × List Char)) (k : List Char) : List Char :=
  match m.find? (fun p => p.1 == k) with
  | some p => p.2
  | none => k

/-- The names contributed by one source line to the AST import walk: the
top-level module of each plain-import alias and of a `from`-import.  Models
the `ast.walk` over `ast.Import` / `ast.ImportFrom` nodes for the
line-oriented fragment. -/
def importNames (s : List Char) : List (List Char) :=
  if ("import ".data).isPrefixOf s then
    (splitCh ',' (s.drop 7)).map (fun piece => topModule (stripWs piece))
  else if ("from ".data).isPrefixOf s then
    [topModule (stripWs ((s.drop 5).takeWhile (fun c => c ≠ ' ')))]
  else []

/-- All top-level imported module names of a program in the modelled
fragment, with `__main__` excluded as in the source walk. -/
def pyImportTops (code : List Char) : List (List Char) :=
  (((splitNl code).map (fun l => importNames (stripWs l))).flatten).filter
    (fun m => m ≠ "__main__".data && !m.isEmpty)

/-- `CodeExecutor.detect_dependencies`, parameterized by the parser.  A
`SyntaxError` from the re-parse is caught and yields `[]`; any other
exception propagates (`Except.error`).  The `set`/`sorted` combination is
modelled by `dedup` and lexicographic insertion sort. -/
def detectCore (pyparse : List Char → ParseRes) (code : List Char) :
    Except Unit (List (List Char)) :=
  let cleaned := sanitize_core pyparse code
  match pyparse cleaned with
  | .synErr => .ok []
  | .otherErr => .error ()
  | .ok =>
    let deps := (pyImportTops cleaned).dedup
    let detected := (deps.filter (fun d => !stdlibModules.contains d)).map (mapGet depMapping)
    .ok (List.insertionSort (· ≤ ·) detected.dedup)

/-- `CodeExecutor.detect_dependencies` with the concrete parser model. -/
def detect_dependencies (code : List Char) : Except Unit (List (List Char)) :=
  detectCore astParses code

/-! ## Auxiliary definitions for the claim statements -/

/-- The `json.loads` stand-in for scenarios whose response contains no JSON
object (it is then never consulted). -/
def noLoads : List Char → Option PyVal := fun _ => none

/-- The `correct` field of an encoded question dict, as an integer. -/
def qCorrectOf (q : PyVal) : Option Int :=
  match q with
  | .pdict d =>
    match dget d "correct".data with
    | some (.pint n) => some n
    | _ => none
  | _ => none

/-- The number of options of an encoded question dict. -/
def qOptionCount (q : PyVal) : Nat :=
  match q with
  | .pdict d =>
    match dget d "options".data with
    | some (.plist l) => l.length
    | _ => 0
  | _ => 0

/-- The `correct` answers of a generated quiz (empty on the error path). -/
def quizCorrects (e : Except Unit PyVal) : List (Option Int) :=
  match e with
  | .ok qd => (getQuestions qd).map qCorrectOf
  | .error _ => []

/-- The option counts of a generated quiz (empty on the error path). -/
def quizOptionCounts (e : Except Unit PyVal) : List Nat :=
  match e with
  | .ok qd => (getQuestions qd).map qOptionCount
  | .error _ => []

/-- A question shell with four distinct non-blank options and a given
`correct` value, for exercising the answer coercion. -/
def mkCorrectQ (v : PyVal) : List (List Char × PyVal) :=
  [("question".data, .pstr "q".data),
   ("options".data, .plist [.pstr "o1".data, .pstr "o2".data,
                            .pstr "o3".data, .pstr "o4".data]),
   ("correct".data, v)]

/-- A parsed question with only three options. -/
def threeOptQ : PyVal :=
  .pdict [("question".data, .pstr "q".data),
          ("options".data, .plist [.pstr "o1".data, .pstr "o2".data, .pstr "o3".data]),
          ("correct".data, .pint 1)]

/-- A parsed question with five options. -/
def fiveOptQ : PyVal :=
  .pdict [("question".data, .pstr "q".data),
          ("options".data, .plist [.pstr "o1".data, .pstr "o2".data, .pstr "o3".data,
                                   .pstr "o4".data, .pstr "o5".data]),
          ("correct".data, .pint 1)]

/-- Scenario B rewritten with a `Q1.` question-number token. -/
def scenBQ1 : List Char :=
  "Q1. What is the capital of France?\nA) Berlin\nB) Madrid\nC) Paris\nD) Rome\nCorrect: C".data

/-- Scenario B exactly as the claim words it: a numeric `1.` enumeration
marker. -/
def scenBNum : List Char :=
  "1. What is the capital of France?\nA) Berlin\nB) Madrid\nC) Paris\nD) Rome\nCorrect: C".data

/-- The end-to-end scenario A input. -/
def c3Input : List Char :=
  "```python\n# comment\nimport json\ndef f():\n    return 1\n```\nThis function returns 1.".data

/-- The sanitizer output scenario A claims. -/
def c3Claimed : List Char := "# comment\nimport json\ndef f():\n    return 1".data

/-- The sanitizer output the code actually produces for scenario A. -/
def c3Actual : List Char := "import json\ndef f():\n    return 1".data

/-- Idempotence counterexample input: the prelude seek keeps a shebang-style
comment line that a second pass trims away. -/
def c2Input : List Char := "x\n#!a\nimport os".data

/-- Line-provenance counterexample input: a byte-order mark, which is not
whitespace, is stripped from the first line. -/
def c10Input : List Char := '﻿' :: "import os".data

/-- The 201-line unparseable input exercising the 200-iteration cap. -/
def cap201 : List Char := intercalateNl (List.replicate 201 [')'])

/-! ## The line-provenance ("only trims") relation

`TrimRelP P out base` says: `out` is obtained from `base` by deleting whole
lines (keeping the order) and removing characters satisfying `P` from the
front of the first kept line and whitespace from the back of the last kept
line.  With `P := wsOrBom` this is what `sanitize_code` actually guarantees;
with `P := pyWs` it is the claim as literally stated. -/

/-- `a` is `b` with a prefix of `P`-characters removed. -/
def LRelP (P : Char → Bool) (a b : List Char) : Prop :=
  ∃ p, b = p ++ a ∧ ∀ c ∈ p, P c = true

/-- `a` is `b` with a whitespace suffix removed. -/
def RRel (a b : List Char) : Prop :=
  ∃ s, b = a ++ s ∧ ∀ c ∈ s, pyWs c = true

/-- `a` is `b` with a `P`-prefix and a whitespace suffix removed. -/
def BRelP (P : Char → Bool) (a b : List Char) : Prop :=
  ∃ p s, b = p ++ a ++ s ∧ (∀ c ∈ p, P c = true) ∧ ∀ c ∈ s, pyWs c = true

/-- All lines equal except that the last may have lost a whitespace suffix. -/
inductive RMod : List (List Char) → List (List Char) → Prop
  | single {a b : List Char} : RRel a b → RMod [a] [b]
  | cons {x : List Char} {as bs : List (List Char)} :
      RMod as bs → RMod (x :: as) (x :: bs)

/-- All lines equal except the first may have lost a `P`-prefix and the last a
whitespace suffix. -/
inductive EModP (P : Char → Bool) : List (List Char) → List (List Char) → Prop
  | nil : EModP P [] []
  | single {a b : List Char} : BRelP P a b → EModP P [a] [b]
  | cons {a b : List Char} {as bs : List (List Char)} :
      LRelP P a b → RMod as bs → EModP P (a :: as) (b :: bs)

/-- The provenance relation: `out` is an edge-trimmed sublist of `base`. -/
def TrimRelP (P : Char → Bool) (out base : List (List Char)) : Prop :=
  ∃ l, List.Sublist l base ∧ EModP P out l

/-- The lines of a sanitizer output (an empty output has no lines). -/
def sanLines (out : List Char) : List (List Char) :=
  if out.isEmpty then [] else splitNl out

/-- The lines of the line-ending-normalized input. -/
def pyLines (s : List Char) : List (List Char) := splitNl (crlf s)

/-- A line consisting solely of Python whitespace. -/
def allWsLine (l : List Char) : Bool := l.all pyWs

def mapHeadF (f : List Char → List Char) : List (List Char) → List (List Char)
  | [] => []
  | h :: t => f h :: t

def mapLastF (f : List Char → List Char) : List (List Char) → List (List Char)
  | [] => []
  | [a] => [f a]
  | a :: t => a :: mapLastF f t

/-- Drop elements from the end of a list while a predicate holds. -/
def dropLastWhile (p : List Char → Bool) : List (List Char) → List (List Char)
  | [] => []
  | a :: t =>
    let r := dropLastWhile p t
    if r.isEmpty && p a then [] else a :: r

/-- Reverse a list of lines and each line (the mirror image of a text). -/
def revL (ls : List (List Char)) : List (List Char) :=
  (ls.map List.reverse).reverse

/-! # Supporting lemmas -/

theorem dget_dsetKey_self (d : List (List Char × PyVal)) (k : List Char) (v : PyVal) :
    dget (dsetKey d k v) k = some v := by
  induction d with
  | nil => simp [dsetKey, dget, List.find?]
  | cons hd t ih =>
    obtain ⟨k', v'⟩ := hd
    by_cases hk : (k' == k) = true
    · simp [dsetKey, hk, dget, List.find?]
    · simp only [dsetKey, hk, if_false, Bool.false_eq_true]
      simp only [dget, List.find?, hk] at ih ⊢
      exact ih

theorem normTopic_fixed : ∀ l : List Char,
    (∀ c ∈ l, pyLowerCh c = c ∧ c ≠ ' ') → normTopic l = l
  | [], _ => rfl
  | c :: t, h => by
    have hc := h c (List.mem_cons_self c t)
    have ht := normTopic_fixed t (fun x hx => h x (List.mem_cons_of_mem _ hx))
    simp only [normTopic, lowerStr, List.map_cons, List.map_map] at ht ⊢
    rw [hc.1]
    rw [if_neg (by simpa using hc.2)]
    exact congrArg (c :: ·) ht

theorem hex_chars_fixed : ∀ c ∈ "0123456789abcdef".data, pyLowerCh c = c ∧ c ≠ ' ' := by
  decide

theorem gen_chars_fixed : ∀ c ∈ "gen_".data, pyLowerCh c = c ∧ c ≠ ' ' := by
  decide

/-! # Claim C7 -/

/-- Claim C7: storing a quiz and retrieving it under the returned identifier
yields exactly the stored quiz (the input dict as mutated by the store: the
generated `quiz_id` is written into it), and looking up an identifier bound
nowhere in the store returns `none` (a not-found signal) rather than raising. -/
theorem claim_C7 (st : List (List Char × PyVal)) (d : List (List Char × PyVal))
    (uuidHex : List Char) (h : ∀ c ∈ uuidHex, c ∈ "0123456789abcdef".data) :
    (get_quiz (store_generated_quiz st (.pdict d) uuidHex).state
        (store_generated_quiz st (.pdict d) uuidHex).quizId =
      some (store_generated_quiz st (.pdict d) uuidHex).storedQuiz) ∧
    ((store_generated_quiz st (.pdict d) uuidHex).storedQuiz =
      .pdict (dsetKey d "quiz_id".data (.pstr ("gen_".data ++ uuidHex)))) ∧
    ∀ (st' : List (List Char × PyVal)) (qid : List Char),
      (∀ kv ∈ st', kv.1 ≠ normTopic qid) → get_quiz st' qid = none := by
  refine ⟨?_, rfl, ?_⟩
  · have hfix : normTopic ("gen_".data ++ uuidHex) = "gen_".data ++ uuidHex := by
      refine normTopic_fixed _ (fun c hc => ?_)
      rcases List.mem_append.mp hc with hg | hu
      · exact gen_chars_fixed c hg
      · exact hex_chars_fixed c (h c hu)
    simp only [store_generated_quiz, get_quiz]
    rw [hfix]
    exact dget_dsetKey_self ..
  · intro st' qid hq
    simp only [get_quiz, dget]
    rw [List.find?_eq_none.mpr]
    · rfl
    · intro kv hkv
      simpa using hq kv hkv

theorem claim_C7_witness :
    (get_quiz (store_generated_quiz [] (.pdict [("topic".data, .pstr "x".data)]) "ab12".data).state
        (store_generated_quiz [] (.pdict [("topic".data, .pstr "x".data)]) "ab12".data).quizId =
      some (store_generated_quiz [] (.pdict [("topic".data, .pstr "x".data)]) "ab12".data).storedQuiz) ∧
    get_quiz [] "nonexistent-id".data = none := by
  have h := claim_C7 [] [("topic".data, .pstr "x".data)] "ab12".data (by decide)
  exact ⟨h.1, h.2.2 [] "nonexistent-id".data (by intro kv hkv; cases hkv)⟩

/-! # Claim C5 -/

/-- Counterexample to claim C5 as stated: the numeric string `"2"` does not
normalize to index 2 — it falls through the letter table and defaults to 0. -/
theorem counterexample_C5 :
    (normQ (mkCorrectQ (.pstr "2".data))).map NormQ.correct = some 0 ∧
    (0 : Int) ≠ 2 := by
  exact ⟨by decide, by decide⟩

/-- Claim C5 (amended): the normalized `correct` is always in `[0, 3]`;
letters map `A..D` (also via the first character of forms like `"B)"`, and
case-insensitively), an unrecognized letter defaults to 0, an integer outside
`[0, 3]` becomes 0 — but a numeric string is NOT mapped to its numeric value:
it defaults to 0 through the letter table. -/
theorem claim_C5 :
    (∀ (d : List (List Char × PyVal)) (r : NormQ),
        normQ d = some r → 0 ≤ r.correct ∧ r.correct ≤ 3) ∧
    (normQ (mkCorrectQ (.pstr "A".data))).map NormQ.correct = some 0 ∧
    (normQ (mkCorrectQ (.pstr "B".data))).map NormQ.correct = some 1 ∧
    (normQ (mkCorrectQ (.pstr "C".data))).map NormQ.correct = some 2 ∧
    (normQ (mkCorrectQ (.pstr "D".data))).map NormQ.correct = some 3 ∧
    (normQ (mkCorrectQ (.pstr "B)".data))).map NormQ.correct = some 1 ∧
    (normQ (mkCorrectQ (.pstr "b".data))).map NormQ.correct = some 1 ∧
    (normQ (mkCorrectQ (.pstr "E".data))).map NormQ.correct = some 0 ∧
    (normQ (mkCorrectQ (.pstr "1".data))).map NormQ.correct = some 0 ∧
    (normQ (mkCorrectQ (.pstr "2".data))).map NormQ.correct = some 0 ∧
    (normQ (mkCorrectQ (.pint 2))).map NormQ.correct = some 2 ∧
    (normQ (mkCorrectQ (.pint 7))).map NormQ.correct = some 0 ∧
    (normQ (mkCorrectQ (.pint (-1)))).map NormQ.correct = some 0 := by
  refine ⟨?_, by decide, by decide, by decide, by decide, by decide, by decide,
    by decide, by decide, by decide, by decide, by decide, by decide⟩
  intro d r h
  simp only [normQ] at h
  split at h
  · exact absurd h (by simp)
  · injection h with h
    subst h
    dsimp only
    split
    · exact ⟨le_refl _, by omega⟩
    · rename_i hcond
      simp only [Bool.or_eq_true, decide_eq_true_eq, not_or, not_lt] at hcond
      omega

theorem claim_C5_witness :
    0 ≤ ((normQ (mkCorrectQ (.pstr "C".data))).getD
          ⟨[], [], 0, []⟩).correct ∧
    ((normQ (mkCorrectQ (.pstr "C".data))).getD ⟨[], [], 0, []⟩).correct ≤ 3 := by
  have h := claim_C5.1 (mkCorrectQ (.pstr "C".data))
    ((normQ (mkCorrectQ (.pstr "C".data))).getD ⟨[], [], 0, []⟩) (by decide)
  exact h

/-! # Claim C6 -/

/-- Claim C6: a question whose cleaned option list (non-blank rendered
options) has fewer than four entries is dropped entirely; otherwise the kept
question carries exactly the first four cleaned options.  Concretely, a
three-option question is dropped and a five-option question is truncated. -/
theorem claim_C6 :
    (∀ d : List (List Char × PyVal),
        (cleanOptions (dgetD d "options".data (.plist []))).length < 4 →
        normQ d = none) ∧
    (∀ (d : List (List Char × PyVal)) (r : NormQ),
        normQ d = some r →
        r.options = (cleanOptions (dgetD d "options".data (.plist []))).take 4 ∧
        r.options.length = 4) ∧
    normQuestions [threeOptQ] = [] ∧
    (normQuestions [fiveOptQ]).map NormQ.options =
      [["o1".data, "o2".data, "o3".data, "o4".data]] := by
  refine ⟨?_, ?_, by decide, by decide⟩
  · intro d h
    simp only [normQ]
    rw [if_pos h]
  · intro d r h
    simp only [normQ] at h
    split at h
    · exact absurd h (by simp)
    · rename_i hlen
      injection h with h
      subst h
      refine ⟨rfl, ?_⟩
      dsimp only
      rw [List.length_take]
      omega

theorem claim_C6_witness :
    normQ (mkCorrectQ (.pint 0)) = none ∨
    (((normQ (mkCorrectQ (.pint 0))).getD ⟨[], [], 0, []⟩).options =
        (cleanOptions (dgetD (mkCorrectQ (.pint 0)) "options".data (.plist []))).take 4 ∧
      ((normQ (mkCorrectQ (.pint 0))).getD ⟨[], [], 0, []⟩).options.length = 4) :=
  Or.inr (claim_C6.2.1 (mkCorrectQ (.pint 0)) _ (by decide))

/-! # Claim C1 (code bug) -/

/-- Claim C1 fails on the code: on the garbage input `"5"` (a response whose
only line is a single digit), the fallback line parser evaluates `line[1]`
after `line[:2].isdigit()` succeeded on a one-character line and raises
`IndexError`, so `generate_realtime_quiz` returns its `except` failure dict
and no quiz at all — the non-emptiness guarantee is not met. -/
theorem claim_C1 :
    generateQuizData noLoads "5".data "ML".data "Beginner".data = .error () ∧
    (parse_quiz_response "5".data "ML".data "Beginner".data).isOk = false := by
  exact ⟨rfl, rfl⟩

/-! # Claim C4 -/

/-- Counterexample to claim C4 as stated: on the scenario-B input written with
the numeric marker `1.`, the fallback parser starts no question record at all
(the condition `line[:2].isdigit() and line[1] in ['.', ')']` is
unsatisfiable for such lines), so the pipeline substitutes the synthetic
fallback question with `correct == 0`, not a parsed question with
`correct == 2`. -/
theorem counterexample_C4 :
    (parse_quiz_response scenBNum "geo".data "Beginner".data).map
        (fun v => (getQuestions v).length) = .ok 0 ∧
    quizCorrects (generateQuizData noLoads scenBNum "geo".data "Beginner".data) =
      [some 0] ∧
    ¬ quizCorrects (generateQuizData noLoads scenBNum "geo".data "Beginner".data) =
      [some 2] := by
  exact ⟨rfl, by decide, by decide⟩

/-- Claim C4 (amended): on any line of two or more characters the
question-start condition reduces to "starts with `Q1`..`Q5` (case-insensitive)
and contains a question mark" — a numeric enumeration marker never starts a
question (and a single-digit line raises `IndexError`).  Scenario B holds
when the question is numbered with the token `Q1`: exactly one question, four
options, `correct == 2`. -/
theorem claim_C4 :
    (∀ l : List Char, 2 ≤ l.length →
        qStartEval l = .ok (qTokenCheck l && l.contains '?')) ∧
    quizCorrects (generateQuizData noLoads scenBQ1 "geo".data "Beginner".data) =
      [some 2] ∧
    quizOptionCounts (generateQuizData noLoads scenBQ1 "geo".data "Beginner".data) =
      [4] ∧
    (generateQuizData noLoads scenBQ1 "geo".data "Beginner".data).map
        (fun v => (getQuestions v).length) = .ok 1 := by
  refine ⟨?_, by decide, by decide, rfl⟩
  intro l hl
  match l with
  | c1 :: c2 :: rest =>
    simp only [qStartEval]
    by_cases hd : pyIsDigitStr ((c1 :: c2 :: rest).take 2) = true
    · rw [if_pos hd]
      have hc2 : isDigitCh c2 = true := by
        simp only [pyIsDigitStr, List.take, Bool.and_eq_true, List.all_cons,
          List.all_nil, Bool.and_true] at hd
        exact hd.2.2
      have hne : (c2 == '.' || c2 == ')') = false := by
        simp only [isDigitCh, Bool.and_eq_true, decide_eq_true_eq] at hc2
        simp only [Bool.or_eq_false_iff, beq_eq_false_iff_ne]
        constructor <;> rintro rfl <;> exact absurd hc2.1 (by decide)
      show (if (c2 == '.' || c2 == ')') = true
          then Except.ok ((c1 :: c2 :: rest).contains '?')
          else Except.ok (qTokenCheck (c1 :: c2 :: rest) &&
            (c1 :: c2 :: rest).contains '?')) =
        Except.ok (qTokenCheck (c1 :: c2 :: rest) && (c1 :: c2 :: rest).contains '?')
      rw [hne]
      simp
    · rw [if_neg hd]

theorem claim_C4_witness : qStartEval "1. What is ML?".data = .ok false := by
  have h := claim_C4.1 "1. What is ML?".data (by decide)
  rw [h]
  rfl

/-! # Claim C8 -/

/-- Claim C8: `detect_dependencies` always returns a lexicographically sorted,
duplicate-free list; the standard library is excluded and known import names
are mapped to install names with identity fallback (`os`+`numpy` gives
`["numpy"]`, `cv2` gives `["opencv-python"]`); a `SyntaxError` on the
sanitized input yields `[]` instead of raising. -/
theorem claim_C8 :
    (∀ (p : List Char → ParseRes) (code : List Char) (l : List (List Char)),
        detectCore p code = .ok l → List.Sorted (· ≤ ·) l ∧ l.Nodup) ∧
    detect_dependencies "import os\nimport numpy".data = .ok ["numpy".data] ∧
    detect_dependencies "import cv2".data = .ok ["opencv-python".data] ∧
    ∀ (p : List Char → ParseRes) (code : List Char),
      p (sanitize_core p code) = .synErr → detectCore p code = .ok [] := by
  refine ⟨?_, rfl, rfl, ?_⟩
  · intro p code l h
    simp only [detectCore] at h
    split at h
    · cases h
      exact ⟨List.sorted_nil, List.nodup_nil⟩
    · cases h
    · cases h
      exact ⟨List.sorted_insertionSort _ _,
        (List.perm_insertionSort _ _).nodup_iff.mpr (List.nodup_dedup _)⟩
  · intro p code h
    simp only [detectCore, h]

theorem claim_C8_witness :
    (List.Sorted (· ≤ ·) ["opencv-python".data] ∧ ["opencv-python".data].Nodup) ∧
    detectCore (fun _ => .synErr) "x".data = .ok [] :=
  ⟨claim_C8.1 astParses "import cv2".data ["opencv-python".data] rfl,
   claim_C8.2.2.2 (fun _ => .synErr) "x".data rfl⟩

/-! # Claim C9 -/

theorem trimLoop_spec (fuel : Nat) :
    ∀ (p : List Char → ParseRes) (ls : List (List Char)),
      ∃ k, k ≤ ls.length ∧ ls.length ≤ k + fuel ∧
        (trimLoop fuel p ls = [] ∨
          trimLoop fuel p ls = stripWs (intercalateNl (ls.take k))) := by
  induction fuel with
  | zero =>
    intro p ls
    exact ⟨ls.length, le_refl _, by omega, Or.inr (by rw [List.take_length]; rfl)⟩
  | succ fuel ih =>
    intro p ls
    simp only [trimLoop]
    by_cases hc : (stripWs (intercalateNl ls)).isEmpty = true
    · exact ⟨ls.length, le_refl _, by omega, Or.inl (by rw [if_pos hc])⟩
    · rw [if_neg hc]
      cases hp : p (stripWs (intercalateNl ls)) with
      | ok =>
        refine ⟨ls.length, le_refl _, by omega, Or.inr ?_⟩
        rw [List.take_length]
      | otherErr =>
        refine ⟨ls.length, le_refl _, by omega, Or.inr ?_⟩
        rw [List.take_length]
      | synErr =>
        cases ls with
        | nil =>
          exact ⟨0, by simp, by simp, Or.inr rfl⟩
        | cons x xs =>
          obtain ⟨k, hk1, hk2, hk3⟩ := ih p ((x :: xs).dropLast)
          have hlen : ((x :: xs).dropLast).length = xs.length := by
            rw [List.length_dropLast]
            simp
          have htake : ((x :: xs).dropLast).take k = (x :: xs).take k := by
            rw [List.dropLast_eq_take, List.take_take]
            congr 1
            simp only [List.length_cons, Nat.add_sub_cancel]
            omega
          rw [htake] at hk3
          exact ⟨k, by simp only [List.length_cons]; omega,
            by simp only [List.length_cons]; omega, hk3⟩

/-- Claim C9: for every parser and every input, `sanitize_code` terminates
with a result that is the pre-loop line list trimmed from the end by at most
the fixed cap of 200 pop-and-reparse iterations (or the empty string); on cap
exhaustion the best-effort trimmed candidate is returned rather than looping
or raising. -/
theorem claim_C9 (p : List Char → ParseRes) (s : List Char) :
    ∃ k, k ≤ (trimReady s).length ∧ (trimReady s).length ≤ k + 200 ∧
      (sanitize_core p s = [] ∨
        sanitize_core p s = stripWs (intercalateNl ((trimReady s).take k))) := by
  by_cases hs : s.isEmpty = true
  · exact ⟨(trimReady s).length, le_refl _, by omega,
      Or.inl (by simp [sanitize_core, hs])⟩
  · have h := trimLoop_spec 200 p (trimReady s)
    simpa only [sanitize_core, hs, if_false, Bool.false_eq_true] using h

/-! # Claim C3 -/

/-- Counterexample to claim C3 as stated: the sanitizer does not keep the
leading `# comment` line — the prelude trim drops every leading line starting
with `#` (the markdown-heading heuristic also eats Python comments). -/
theorem counterexample_C3 : sanitize_code c3Input ≠ c3Claimed := by decide

/-- Claim C3 (amended): on the scenario-A input, sanitize returns
`"import json\ndef f():\n    return 1"` (the leading comment line is dropped
by the prelude trim; fences and the trailing prose are removed), validate
returns `(True, None)`, and detect_dependencies returns `[]`. -/
theorem claim_C3 :
    sanitize_code c3Input = c3Actual ∧
    validate_syntax astParses c3Input = (true, none) ∧
    detect_dependencies c3Input = .ok [] := by
  exact ⟨by decide, by decide, rfl⟩

/-! # splitCh / intercalateNl toolbox -/

theorem splitCh_ne_nil (sep : Char) (l : List Char) : splitCh sep l ≠ [] := by
  induction l with
  | nil => simp [splitCh]
  | cons c t ih =>
    simp only [splitCh]
    split
    · simp
    · split
      · simp
      · simp

theorem not_mem_of_mem_splitCh (sep : Char) (l : List Char) :
    ∀ x ∈ splitCh sep l, sep ∉ x := by
  induction l with
  | nil =>
    intro x hx
    simp [splitCh] at hx
    simp [hx]
  | cons c t ih =>
    intro x hx
    simp only [splitCh] at hx
    split at hx
    · rcases List.mem_cons.mp hx with rfl | hx
      · simp
      · exact ih x hx
    · rename_i hcs
      rcases hsp : splitCh sep t with _ | ⟨h, r⟩
      · exact absurd hsp (splitCh_ne_nil sep t)
      · rw [hsp] at hx
        rcases List.mem_cons.mp hx with rfl | hx
        · intro hmem
          rcases List.mem_cons.mp hmem with rfl | hmem
          · exact hcs rfl
          · exact ih h (by rw [hsp]; exact List.mem_cons_self ..) hmem
        · exact ih x (by rw [hsp]; exact List.mem_cons_of_mem _ hx)

theorem splitCh_of_not_mem (sep : Char) (a : List Char) (ha : sep ∉ a) :
    splitCh sep a = [a] := by
  induction a with
  | nil => simp [splitCh]
  | cons c t ih =>
    have hc : c ≠ sep := fun h => ha (h ▸ List.mem_cons_self ..)
    have ht : sep ∉ t := fun h => ha (List.mem_cons_of_mem _ h)
    simp only [splitCh, if_neg (fun h => hc h)]
    rw [ih ht]

theorem splitCh_append_cons (sep : Char) (a r : List Char) (ha : sep ∉ a) :
    splitCh sep (a ++ sep :: r) = a :: splitCh sep r := by
  induction a with
  | nil => simp [splitCh]
  | cons c t ih =>
    have hc : c ≠ sep := fun h => ha (h ▸ List.mem_cons_self ..)
    have ht : sep ∉ t := fun h => ha (List.mem_cons_of_mem _ h)
    simp only [List.cons_append, splitCh, if_neg (fun h => hc h), List.append_eq]
    rw [ih ht]

theorem splitNl_intercalateNl : ∀ L : List (List Char), L ≠ [] →
    (∀ x ∈ L, '\n' ∉ x) → splitNl (intercalateNl L) = L
  | [], h, _ => absurd rfl h
  | [a], _, hnl => by
    have ha : '\n' ∉ a := hnl a (List.mem_cons_self ..)
    simp only [intercalateNl, splitNl]
    exact splitCh_of_not_mem '\n' a ha
  | a :: b :: t, _, hnl => by
    have ha : '\n' ∉ a := hnl a (List.mem_cons_self ..)
    show splitNl (a ++ '\n' :: intercalateNl (b :: t)) = a :: (b :: t)
    rw [show splitNl (a ++ '\n' :: intercalateNl (b :: t)) =
        a :: splitNl (intercalateNl (b :: t)) from splitCh_append_cons '\n' a _ ha]
    rw [splitNl_intercalateNl (b :: t) (by simp)
      (fun x hx => hnl x (List.mem_cons_of_mem _ hx))]

theorem nlFree_of_mem_splitNl (l : List Char) (x : List Char)
    (hx : x ∈ splitNl l) : '\n' ∉ x :=
  not_mem_of_mem_splitCh '\n' l x hx

/-! # Whitespace-stripping toolbox -/

theorem lstrip_eq_nil_of_all (l : List Char) (h : allWsLine l = true) :
    lstripWs l = [] :=
  List.dropWhile_eq_nil_iff.mpr (fun x hx => List.all_eq_true.mp h x hx)

theorem allWsLine_reverse (l : List Char) : allWsLine l.reverse = allWsLine l := by
  unfold allWsLine
  exact List.all_reverse

theorem rstrip_eq_nil_of_all (l : List Char) (h : allWsLine l = true) :
    rstripWs l = [] := by
  unfold rstripWs
  rw [List.dropWhile_eq_nil_iff.mpr
    (fun x hx => List.all_eq_true.mp h x (List.mem_reverse.mp hx))]
  rfl

theorem lstrip_decomp (l : List Char) :
    ∃ pfx, l = pfx ++ lstripWs l ∧ ∀ c ∈ pfx, pyWs c = true := by
  refine ⟨l.takeWhile pyWs, ?_, fun c hc => List.mem_takeWhile_imp hc⟩
  exact (List.takeWhile_append_dropWhile ..).symm

theorem rstrip_decomp (l : List Char) :
    ∃ sfx, l = rstripWs l ++ sfx ∧ ∀ c ∈ sfx, pyWs c = true := by
  refine ⟨(l.reverse.takeWhile pyWs).reverse, ?_, fun c hc => ?_⟩
  · unfold rstripWs
    rw [← List.reverse_append, List.takeWhile_append_dropWhile, List.reverse_reverse]
  · exact List.mem_takeWhile_imp (List.mem_reverse.mp hc)

theorem strip_decomp (l : List Char) :
    ∃ pfx sfx, l = pfx ++ stripWs l ++ sfx ∧
      (∀ c ∈ pfx, pyWs c = true) ∧ ∀ c ∈ sfx, pyWs c = true := by
  obtain ⟨pfx, hp, hpw⟩ := lstrip_decomp l
  obtain ⟨sfx, hs, hsw⟩ := rstrip_decomp (lstripWs l)
  refine ⟨pfx, sfx, ?_, hpw, hsw⟩
  conv_lhs => rw [hp, hs]
  simp [stripWs, List.append_assoc]

theorem lstripBom_decomp (l : List Char) :
    ∃ pfx, l = pfx ++ lstripBom l ∧ ∀ c ∈ pfx, isBom c = true := by
  refine ⟨l.takeWhile isBom, ?_, fun c hc => List.mem_takeWhile_imp hc⟩
  exact (List.takeWhile_append_dropWhile ..).symm

theorem allWs_of_strip_eq_nil (l : List Char) (h : stripWs l = []) :
    allWsLine l = true := by
  obtain ⟨pfx, sfx, hl, hp, hs⟩ := strip_decomp l
  rw [h] at hl
  rw [allWsLine, List.all_eq_true]
  intro x hx
  rw [hl] at hx
  simp only [List.append_nil, List.mem_append] at hx
  rcases hx with hx | hx
  · exact hp x hx
  · exact hs x hx

theorem not_allWs_lstrip (l : List Char) (h : allWsLine l = false) :
    allWsLine (lstripWs l) = false := by
  by_contra hc
  obtain ⟨pfx, hp, hpw⟩ := lstrip_decomp l
  rw [Bool.not_eq_false] at hc
  have hall : allWsLine l = true := by
    rw [allWsLine, List.all_eq_true]
    intro x hx
    rw [hp] at hx
    rcases List.mem_append.mp hx with hx | hx
    · exact hpw x hx
    · exact List.all_eq_true.mp hc x hx
  rw [hall] at h
  cases h

theorem nlFree_lstrip (l : List Char) (h : '\n' ∉ l) : '\n' ∉ lstripWs l :=
  fun hm => h ((List.dropWhile_sublist pyWs).subset hm)

theorem nlFree_rstrip (l : List Char) (h : '\n' ∉ l) : '\n' ∉ rstripWs l := by
  intro hm
  simp only [rstripWs] at hm
  exact h (List.mem_reverse.mp ((List.dropWhile_sublist pyWs).subset (List.mem_reverse.mp hm)))

theorem nlFree_strip (l : List Char) (h : '\n' ∉ l) : '\n' ∉ stripWs l :=
  nlFree_rstrip _ (nlFree_lstrip _ h)

theorem nlFree_lstripBom (l : List Char) (h : '\n' ∉ l) : '\n' ∉ lstripBom l :=
  fun hm => h ((List.dropWhile_sublist isBom).subset hm)

/-! # Strip-of-join characterizations -/

theorem mem_intercalateNl : ∀ (L : List (List Char)) (c : Char),
    c ∈ intercalateNl L → c = '\n' ∨ ∃ x ∈ L, c ∈ x
  | [], c, h => by simp [intercalateNl] at h
  | [a], c, h => Or.inr ⟨a, List.mem_cons_self .., h⟩
  | a :: b :: t, c, h => by
    rcases List.mem_append.mp h with h | h
    · exact Or.inr ⟨a, List.mem_cons_self .., h⟩
    · rcases List.mem_cons.mp h with rfl | h
      · exact Or.inl rfl
      · rcases mem_intercalateNl (b :: t) c h with h | ⟨x, hx, hc⟩
        · exact Or.inl h
        · exact Or.inr ⟨x, List.mem_cons_of_mem _ hx, hc⟩

theorem lstrip_intercalate : ∀ L : List (List Char),
    lstripWs (intercalateNl L) =
      intercalateNl (mapHeadF lstripWs (L.dropWhile allWsLine))
  | [] => rfl
  | [a] => by
    by_cases h : allWsLine a = true
    · simp only [intercalateNl, List.dropWhile, h, mapHeadF]
      exact lstrip_eq_nil_of_all a h
    · have h' : allWsLine a = false := Bool.eq_false_iff.mpr h
      simp only [intercalateNl, List.dropWhile, h', mapHeadF]
  | a :: b :: t => by
    show lstripWs (a ++ '\n' :: intercalateNl (b :: t)) = _
    unfold lstripWs
    rw [List.dropWhile_append]
    by_cases h : allWsLine a = true
    · rw [show List.dropWhile pyWs a = [] from lstrip_eq_nil_of_all a h]
      rw [if_pos List.isEmpty_nil]
      rw [show List.dropWhile pyWs ('\n' :: intercalateNl (b :: t)) =
          List.dropWhile pyWs (intercalateNl (b :: t)) from by
        simp [List.dropWhile, show pyWs '\n' = true from rfl]]
      rw [show (a :: b :: t).dropWhile allWsLine = (b :: t).dropWhile allWsLine from by
        simp [List.dropWhile, h]]
      exact lstrip_intercalate (b :: t)
    · have h' : allWsLine a = false := Bool.eq_false_iff.mpr h
      have hne : (List.dropWhile pyWs a).isEmpty ≠ true := by
        rcases he : List.dropWhile pyWs a with _ | ⟨c, cs⟩
        · exfalso
          have hall : allWsLine a = true := by
            rw [allWsLine, List.all_eq_true]
            exact List.dropWhile_eq_nil_iff.mp he
          rw [hall] at h'
          cases h'
        · simp
      rw [if_neg hne]
      rw [show (a :: b :: t).dropWhile allWsLine = a :: b :: t from by
        simp [List.dropWhile, h']]
      rfl

theorem intercalateNl_append_single : ∀ (M : List (List Char)) (x : List Char),
    M ≠ [] → intercalateNl (M ++ [x]) = intercalateNl M ++ '\n' :: x
  | [], _, h => absurd rfl h
  | [a], x, _ => rfl
  | a :: b :: t, x, _ => by
    show intercalateNl (a :: ((b :: t) ++ [x])) = _
    have hbt : (b :: t) ++ [x] ≠ [] := by simp
    rcases he : (b :: t) ++ [x] with _ | ⟨y, ys⟩
    · exact absurd he hbt
    · show a ++ '\n' :: intercalateNl (y :: ys) = (a ++ '\n' :: intercalateNl (b :: t)) ++ '\n' :: x
      rw [← he, intercalateNl_append_single (b :: t) x (by simp)]
      simp [List.append_assoc]

theorem dropLastWhile_append_single (p : List Char → Bool) :
    ∀ (M : List (List Char)) (x : List Char),
      dropLastWhile p (M ++ [x]) =
        if p x then dropLastWhile p M else M ++ [x]
  | [], x => by
    simp only [List.nil_append, dropLastWhile, List.isEmpty_nil, Bool.true_and]
  | m :: M', x => by
    by_cases hx : p x = true
    · rw [if_pos hx]
      simp only [List.cons_append, dropLastWhile, List.append_eq]
      rw [dropLastWhile_append_single p M' x, if_pos hx]
    · rw [if_neg hx]
      simp only [List.cons_append, dropLastWhile, List.append_eq]
      rw [dropLastWhile_append_single p M' x, if_neg hx]
      rw [show (M' ++ [x]).isEmpty = false from by simp]
      simp

theorem mapLastF_append_single (f : List Char → List Char) :
    ∀ (M : List (List Char)) (x : List Char),
      mapLastF f (M ++ [x]) = M ++ [f x]
  | [], x => rfl
  | [a], x => rfl
  | a :: b :: M', x => by
    show a :: mapLastF f ((b :: M') ++ [x]) = a :: ((b :: M') ++ [f x])
    rw [mapLastF_append_single f (b :: M') x]

theorem rstrip_append_newline_all (A x : List Char) (h : allWsLine x = true) :
    rstripWs (A ++ '\n' :: x) = rstripWs A := by
  unfold rstripWs
  rw [show (A ++ '\n' :: x).reverse = x.reverse ++ '\n' :: A.reverse from by
    simp]
  rw [List.dropWhile_append]
  rw [show List.dropWhile pyWs x.reverse = [] from
    List.dropWhile_eq_nil_iff.mpr
      (fun c hc => List.all_eq_true.mp h c (List.mem_reverse.mp hc))]
  rw [if_pos List.isEmpty_nil]
  rw [show List.dropWhile pyWs ('\n' :: A.reverse) =
      List.dropWhile pyWs A.reverse from by
    simp [List.dropWhile, show pyWs '\n' = true from rfl]]

theorem rstrip_append_newline_not (A x : List Char) (h : allWsLine x = false) :
    rstripWs (A ++ '\n' :: x) = A ++ '\n' :: rstripWs x := by
  unfold rstripWs
  rw [show (A ++ '\n' :: x).reverse = x.reverse ++ '\n' :: A.reverse from by
    simp]
  rw [List.dropWhile_append]
  have hne : (List.dropWhile pyWs x.reverse).isEmpty ≠ true := by
    rcases he : List.dropWhile pyWs x.reverse with _ | _
    · exfalso
      have hall : allWsLine x = true := by
        rw [allWsLine, List.all_eq_true]
        intro c hc
        exact List.dropWhile_eq_nil_iff.mp he c (List.mem_reverse.mpr hc)
      rw [hall] at h
      cases h
    · simp
  rw [if_neg hne]
  rw [List.reverse_append]
  simp

theorem rstrip_intercalate (L : List (List Char)) :
    rstripWs (intercalateNl L) =
      intercalateNl (mapLastF rstripWs (dropLastWhile allWsLine L)) := by
  induction L using List.reverseRecOn with
  | nil => rfl
  | append_singleton M x ih =>
    rcases M with _ | ⟨m, M'⟩
    · show rstripWs (intercalateNl [x]) = _
      rw [dropLastWhile_append_single]
      by_cases hx : allWsLine x = true
      · rw [if_pos hx]
        show rstripWs x = _
        rw [rstrip_eq_nil_of_all x hx]
        rfl
      · rw [if_neg hx]
        show rstripWs x = intercalateNl (mapLastF rstripWs [x])
        rfl
    · rw [intercalateNl_append_single (m :: M') x (by simp)]
      rw [dropLastWhile_append_single]
      by_cases hx : allWsLine x = true
      · rw [if_pos hx, rstrip_append_newline_all _ x hx]
        exact ih
      · rw [if_neg hx,
          rstrip_append_newline_not _ x (Bool.eq_false_iff.mpr hx)]
        rw [mapLastF_append_single]
        rw [intercalateNl_append_single (m :: M') (rstripWs x) (by simp)]

theorem lstripBom_intercalate : ∀ (h : List Char) (t : List (List Char)),
    lstripBom (intercalateNl (h :: t)) = intercalateNl (lstripBom h :: t)
  | h, [] => rfl
  | h, b :: t => by
    show lstripBom (h ++ '\n' :: intercalateNl (b :: t)) = _
    unfold lstripBom
    rw [List.dropWhile_append]
    by_cases hb : (List.dropWhile isBom h).isEmpty = true
    · rw [if_pos hb]
      rw [show List.dropWhile isBom ('\n' :: intercalateNl (b :: t)) =
          '\n' :: intercalateNl (b :: t) from by
        simp [List.dropWhile, show isBom '\n' = false from rfl]]
      rw [show List.dropWhile isBom h = [] from by
        rcases he : List.dropWhile isBom h with _ | _
        · rfl
        · rw [he] at hb; cases hb]
      rfl
    · rw [if_neg (by simp only [hb]; exact fun h => nomatch h)]
      rcases he : List.dropWhile isBom h with _ | ⟨c, cs⟩
      · rw [he] at hb; exact absurd List.isEmpty_nil hb
      · rfl

/-! # Properties of the provenance relation -/

theorem LRelP_refl (P : Char → Bool) (a : List Char) : LRelP P a a :=
  ⟨[], rfl, by simp⟩

theorem RRel_refl (a : List Char) : RRel a a :=
  ⟨[], by simp, by simp⟩

theorem BRelP_refl (P : Char → Bool) (a : List Char) : BRelP P a a :=
  ⟨[], [], by simp, by simp, by simp⟩

theorem LRelP_trans {P : Char → Bool} {a b c : List Char}
    (h1 : LRelP P a b) (h2 : LRelP P b c) : LRelP P a c := by
  obtain ⟨p1, rfl, hp1⟩ := h1
  obtain ⟨p2, rfl, hp2⟩ := h2
  exact ⟨p2 ++ p1, by simp [List.append_assoc], fun x hx => by
    rcases List.mem_append.mp hx with hx | hx
    · exact hp2 x hx
    · exact hp1 x hx⟩

theorem RRel_trans {a b c : List Char} (h1 : RRel a b) (h2 : RRel b c) :
    RRel a c := by
  obtain ⟨s1, rfl, hs1⟩ := h1
  obtain ⟨s2, rfl, hs2⟩ := h2
  exact ⟨s1 ++ s2, by simp [List.append_assoc], fun x hx => by
    rcases List.mem_append.mp hx with hx | hx
    · exact hs1 x hx
    · exact hs2 x hx⟩

theorem BRelP_trans {P : Char → Bool} {a b c : List Char}
    (h1 : BRelP P a b) (h2 : BRelP P b c) : BRelP P a c := by
  obtain ⟨p1, s1, rfl, hp1, hs1⟩ := h1
  obtain ⟨p2, s2, rfl, hp2, hs2⟩ := h2
  refine ⟨p2 ++ p1, s1 ++ s2, by simp [List.append_assoc], fun x hx => ?_, fun x hx => ?_⟩
  · rcases List.mem_append.mp hx with hx | hx
    · exact hp2 x hx
    · exact hp1 x hx
  · rcases List.mem_append.mp hx with hx | hx
    · exact hs1 x hx
    · exact hs2 x hx

theorem BRelP_of_LRelP {P : Char → Bool} {a b : List Char}
    (h : LRelP P a b) : BRelP P a b := by
  obtain ⟨p, rfl, hp⟩ := h
  exact ⟨p, [], by simp, hp, by simp⟩

theorem BRelP_of_RRel {P : Char → Bool} {a b : List Char} (h : RRel a b) :
    BRelP P a b := by
  obtain ⟨s, rfl, hs⟩ := h
  exact ⟨[], s, by simp, by simp, hs⟩

theorem BRelP_of_LRelP_RRel {P : Char → Bool} {a b c : List Char}
    (h1 : LRelP P a b) (h2 : RRel b c) : BRelP P a c :=
  BRelP_trans (BRelP_of_LRelP h1) (BRelP_of_RRel h2)

theorem RMod_ne_nil {as bs : List (List Char)} (h : RMod as bs) :
    as ≠ [] ∧ bs ≠ [] := by
  cases h <;> simp

theorem RMod_refl : ∀ as : List (List Char), as ≠ [] → RMod as as
  | [], h => absurd rfl h
  | [a], _ => RMod.single (RRel_refl a)
  | a :: b :: t, _ => RMod.cons (RMod_refl (b :: t) (by simp))

theorem EModP_refl (P : Char → Bool) : ∀ A : List (List Char), EModP P A A
  | [] => EModP.nil
  | [a] => EModP.single (BRelP_refl P a)
  | a :: b :: t => EModP.cons (LRelP_refl P a) (RMod_refl (b :: t) (by simp))

theorem RMod_trans {as bs cs : List (List Char)}
    (h1 : RMod as bs) (h2 : RMod bs cs) : RMod as cs := by
  induction h1 generalizing cs with
  | single hr =>
    cases h2 with
    | single hr2 => exact RMod.single (RRel_trans hr hr2)
    | cons h2' => exact absurd rfl (RMod_ne_nil h2').1
  | cons h1' ih =>
    cases h2 with
    | single hr2 => exact absurd rfl (RMod_ne_nil h1').2
    | cons h2' => exact RMod.cons (ih h2')

theorem EModP_trans {P : Char → Bool} {A B C : List (List Char)}
    (h1 : EModP P A B) (h2 : EModP P B C) : EModP P A C := by
  cases h1 with
  | nil =>
    cases h2 with
    | nil => exact EModP.nil
  | single hb =>
    cases h2 with
    | single hb2 => exact EModP.single (BRelP_trans hb hb2)
    | cons hl2 hr2 => exact absurd rfl (RMod_ne_nil hr2).1
  | cons hl hr =>
    cases h2 with
    | single hb2 => exact absurd rfl (RMod_ne_nil hr).2
    | cons hl2 hr2 => exact EModP.cons (LRelP_trans hl hl2) (RMod_trans hr hr2)

theorem RMod_to_EModP {P : Char → Bool} {x d : List (List Char)}
    (h : RMod x d) : EModP P x d := by
  induction h with
  | single hr => exact EModP.single (BRelP_of_RRel hr)
  | cons h' ih => exact EModP.cons (LRelP_refl P _) h'

theorem RMod_sub {bs cs : List (List Char)} (h : RMod bs cs) :
    ∀ x, x.Sublist bs → x ≠ [] → ∃ d, d.Sublist cs ∧ RMod x d := by
  induction h with
  | single hr =>
    intro x hx hne
    rcases List.sublist_singleton.mp hx with rfl | rfl
    · exact absurd rfl hne
    · exact ⟨_, List.Sublist.refl _, RMod.single hr⟩
  | cons h' ih =>
    rename_i a as' bs'
    intro x hx hne
    rcases List.sublist_cons_iff.mp hx with hx | ⟨r, rfl, hr⟩
    · obtain ⟨d, hd1, hd2⟩ := ih x hx hne
      exact ⟨d, hd1.trans (List.sublist_cons_self ..), hd2⟩
    · rcases r with _ | ⟨y, ys⟩
      · exact ⟨[a], List.cons_sublist_cons.mpr (List.nil_sublist _),
          RMod.single (RRel_refl a)⟩
      · obtain ⟨d, hd1, hd2⟩ := ih (y :: ys) hr (by simp)
        exact ⟨a :: d, List.cons_sublist_cons.mpr hd1, RMod.cons hd2⟩

theorem EModP_pullback {P : Char → Bool} {N n : List (List Char)}
    (h : EModP P N n) : ∀ M, M.Sublist N → ∃ m, m.Sublist n ∧ EModP P M m := by
  cases h with
  | nil =>
    intro M hM
    rw [List.sublist_nil.mp hM]
    exact ⟨[], List.nil_sublist _, EModP.nil⟩
  | single hb =>
    intro M hM
    rcases List.sublist_singleton.mp hM with rfl | rfl
    · exact ⟨[], List.nil_sublist _, EModP.nil⟩
    · exact ⟨_, List.Sublist.refl _, EModP.single hb⟩
  | cons hl hr =>
    rename_i a b as bs
    intro M hM
    rcases List.sublist_cons_iff.mp hM with hM | ⟨r, rfl, hrr⟩
    · rcases hMe : M with _ | ⟨y, ys⟩
      · exact ⟨[], List.nil_sublist _, EModP.nil⟩
      · obtain ⟨d, hd1, hd2⟩ := RMod_sub hr M (hMe ▸ hM) (by simp [hMe])
        exact ⟨d, hd1.trans (List.sublist_cons_self ..), hMe ▸ RMod_to_EModP hd2⟩
  
    · rcases r with _ | ⟨y, ys⟩
      · exact ⟨[b], List.cons_sublist_cons.mpr (List.nil_sublist _),
          EModP.single (BRelP_of_LRelP hl)⟩
      · obtain ⟨d, hd1, hd2⟩ := RMod_sub hr (y :: ys) hrr (by simp)
        exact ⟨b :: d, List.cons_sublist_cons.mpr hd1, EModP.cons hl hd2⟩

theorem TrimRelP_of_sublist {P : Char → Bool} {A B : List (List Char)}
    (h : A.Sublist B) : TrimRelP P A B :=
  ⟨A, h, EModP_refl P A⟩

theorem TrimRelP_sublist_right {P : Char → Bool} {A B C : List (List Char)}
    (h : TrimRelP P A B) (hBC : B.Sublist C) : TrimRelP P A C := by
  obtain ⟨b, hb, he⟩ := h
  exact ⟨b, hb.trans hBC, he⟩

theorem TrimRelP_trans {P : Char → Bool} {A B C : List (List Char)}
    (h1 : TrimRelP P A B) (h2 : TrimRelP P B C) : TrimRelP P A C := by
  obtain ⟨b, hb, he1⟩ := h1
  obtain ⟨c, hc, he2⟩ := h2
  obtain ⟨c', hc', he'⟩ := EModP_pullback he2 b hb
  exact ⟨c', hc'.trans hc, EModP_trans he1 he'⟩

theorem EModP_headStrip {P : Char → Bool} {x y : List Char}
    {xs l : List (List Char)} (h : EModP P (x :: xs) l) (hy : LRelP P y x) :
    EModP P (y :: xs) l := by
  cases h with
  | single hb =>
    obtain ⟨p2, rfl, hp2⟩ := hy
    obtain ⟨p, s, hdec, hp, hs⟩ := hb
    refine EModP.single ⟨p ++ p2, s, by rw [hdec]; simp [List.append_assoc],
      fun c hc => ?_, hs⟩
    rcases List.mem_append.mp hc with hc | hc
    · exact hp c hc
    · exact hp2 c hc
  | cons hl hr => exact EModP.cons (LRelP_trans hy hl) hr

/-! # Edge relations produced by stripping -/

theorem dropWhile_cons_false {α : Type} (p : α → Bool) :
    ∀ (l : List α) (x : α) (xs : List α),
      l.dropWhile p = x :: xs → p x = false
  | [], x, xs, h => by simp [List.dropWhile] at h
  | a :: t, x, xs, h => by
    by_cases ha : p a = true
    · rw [List.dropWhile_cons_of_pos ha] at h
      exact dropWhile_cons_false p t x xs h
    · rw [List.dropWhile_cons_of_neg ha] at h
      cases h
      exact Bool.eq_false_iff.mpr ha

theorem dropLastWhile_cons_false (p : List Char → Bool) (a : List Char)
    (t : List (List Char)) (ha : p a = false) :
    dropLastWhile p (a :: t) = a :: dropLastWhile p t := by
  simp [dropLastWhile, ha]

theorem dropLastWhile_sublist (p : List Char → Bool) :
    ∀ ls : List (List Char), (dropLastWhile p ls).Sublist ls
  | [] => List.Sublist.refl _
  | a :: t => by
    simp only [dropLastWhile]
    split
    · exact List.nil_sublist _
    · exact List.cons_sublist_cons.mpr (dropLastWhile_sublist p t)

theorem mem_mapLastF (f : List Char → List Char) :
    ∀ (M : List (List Char)) (x : List Char), x ∈ mapLastF f M →
      x ∈ M ∨ ∃ z ∈ M, x = f z
  | [], x, h => by simp [mapLastF] at h
  | [a], x, h => by
    simp only [mapLastF, List.mem_singleton] at h
    exact Or.inr ⟨a, List.mem_singleton.mpr rfl, h⟩
  | a :: b :: t, x, h => by
    rcases List.mem_cons.mp h with rfl | h
    · exact Or.inl (List.mem_cons_self ..)
    · rcases mem_mapLastF f (b :: t) x h with h | ⟨z, hz, hx⟩
      · exact Or.inl (List.mem_cons_of_mem _ h)
      · exact Or.inr ⟨z, List.mem_cons_of_mem _ hz, hx⟩

theorem LRelP_lstrip (P : Char → Bool) (hP : ∀ c, pyWs c = true → P c = true)
    (a : List Char) : LRelP P (lstripWs a) a := by
  obtain ⟨pfx, hp, hpw⟩ := lstrip_decomp a
  exact ⟨pfx, hp, fun c hc => hP c (hpw c hc)⟩

theorem RRel_rstrip (a : List Char) : RRel (rstripWs a) a := by
  obtain ⟨sfx, hs, hsw⟩ := rstrip_decomp a
  exact ⟨sfx, hs, hsw⟩

theorem BRelP_strip (P : Char → Bool) (hP : ∀ c, pyWs c = true → P c = true)
    (a : List Char) : BRelP P (stripWs a) a := by
  obtain ⟨pfx, sfx, hd, hpw, hsw⟩ := strip_decomp a
  exact ⟨pfx, sfx, hd, fun c hc => hP c (hpw c hc), hsw⟩

theorem LRelP_lstripBom (P : Char → Bool)
    (hB : ∀ c, isBom c = true → P c = true) (a : List Char) :
    LRelP P (lstripBom a) a := by
  obtain ⟨pfx, hp, hpw⟩ := lstripBom_decomp a
  exact ⟨pfx, hp, fun c hc => hB c (hpw c hc)⟩

theorem RMod_mapLastF : ∀ M : List (List Char), M ≠ [] →
    RMod (mapLastF rstripWs M) M
  | [], h => absurd rfl h
  | [a], _ => RMod.single (RRel_rstrip a)
  | a :: b :: t, _ => RMod.cons (RMod_mapLastF (b :: t) (by simp))

/-! # The strip-of-join characterization -/

theorem stripInter_emod (P : Char → Bool)
    (hP : ∀ c, pyWs c = true → P c = true) (L : List (List Char))
    (hne : L ≠ []) (hnl : ∀ x ∈ L, '\n' ∉ x) :
    ∃ K, K ≠ [] ∧ (∀ x ∈ K, '\n' ∉ x) ∧
      stripWs (intercalateNl L) = intercalateNl K ∧
      ∃ l, l.Sublist L ∧ EModP P K l := by
  have hsplit : stripWs (intercalateNl L) =
      rstripWs (lstripWs (intercalateNl L)) := rfl
  rcases hL' : L.dropWhile allWsLine with _ | ⟨h₀, t⟩
  · -- every line is whitespace-only: everything strips to the empty string
    have hallws : ∀ x ∈ L, allWsLine x = true := List.dropWhile_eq_nil_iff.mp hL'
    have hnil : stripWs (intercalateNl L) = [] := by
      rw [hsplit, lstrip_intercalate, hL']
      rfl
    rcases L with _ | ⟨h₁, t₁⟩
    · exact absurd rfl hne
    · refine ⟨[[]], by simp, by simp, by rw [hnil]; rfl,
        [h₁], List.cons_sublist_cons.mpr (List.nil_sublist _), ?_⟩
      refine EModP.single ⟨[], h₁, by simp, by simp, fun c hc => ?_⟩
      exact List.all_eq_true.mp (hallws h₁ (List.mem_cons_self ..)) c hc
  · -- a first non-whitespace line exists
    have hsubL' : (h₀ :: t).Sublist L := hL' ▸ List.dropWhile_sublist allWsLine
    have hmem0 : h₀ ∈ L := hsubL'.subset (List.mem_cons_self ..)
    have hh₀ : allWsLine h₀ = false := dropWhile_cons_false allWsLine L h₀ t hL'
    have hlh₀ : allWsLine (lstripWs h₀) = false := not_allWs_lstrip h₀ hh₀
    have hstep1 : lstripWs (intercalateNl L) =
        intercalateNl (lstripWs h₀ :: t) := by
      rw [lstrip_intercalate, hL']
      rfl
    rw [hsplit, hstep1, rstrip_intercalate,
      dropLastWhile_cons_false allWsLine _ t hlh₀]
    rcases ht' : dropLastWhile allWsLine t with _ | ⟨y, ys⟩
    · -- only the first line survives
      refine ⟨[stripWs h₀], by simp, ?_, rfl, [h₀],
        (List.cons_sublist_cons.mpr (List.nil_sublist _)).trans hsubL', ?_⟩
      · intro x hx
        rw [List.mem_singleton.mp hx]
        exact nlFree_strip h₀ (hnl h₀ hmem0)
      · exact EModP.single (BRelP_strip P hP h₀)
    · -- several lines survive
      have hsubt' : (y :: ys).Sublist t := ht' ▸ dropLastWhile_sublist allWsLine t
      refine ⟨lstripWs h₀ :: mapLastF rstripWs (y :: ys), by simp, ?_, rfl,
        h₀ :: y :: ys,
        (List.cons_sublist_cons.mpr hsubt').trans hsubL', ?_⟩
      · intro x hx
        rcases List.mem_cons.mp hx with rfl | hx
        · exact nlFree_lstrip h₀ (hnl h₀ hmem0)
        · have hmemt : ∀ z ∈ y :: ys, '\n' ∉ z := fun z hz =>
            hnl z (hsubL'.subset (List.mem_cons_of_mem _ (hsubt'.subset hz)))
          rcases mem_mapLastF rstripWs (y :: ys) x hx with hx | ⟨z, hz, rfl⟩
          · exact hmemt x hx
          · exact nlFree_rstrip z (hmemt z hz)
      · exact EModP.cons (LRelP_lstrip P hP h₀) (RMod_mapLastF (y :: ys) (by simp))

theorem stripBomInter_emod (P : Char → Bool)
    (hP : ∀ c, pyWs c = true → P c = true)
    (hB : ∀ c, isBom c = true → P c = true) (L : List (List Char))
    (hne : L ≠ []) (hnl : ∀ x ∈ L, '\n' ∉ x) :
    ∃ K, K ≠ [] ∧ (∀ x ∈ K, '\n' ∉ x) ∧
      lstripBom (stripWs (intercalateNl L)) = intercalateNl K ∧
      ∃ l, l.Sublist L ∧ EModP P K l := by
  obtain ⟨K, hKne, hKnl, hKeq, l, hl, he⟩ := stripInter_emod P hP L hne hnl
  rcases K with _ | ⟨k₀, kt⟩
  · exact absurd rfl hKne
  · refine ⟨lstripBom k₀ :: kt, by simp, ?_, ?_, l, hl, ?_⟩
    · intro x hx
      rcases List.mem_cons.mp hx with rfl | hx
      · exact nlFree_lstripBom k₀ (hKnl k₀ (List.mem_cons_self ..))
      · exact hKnl x (List.mem_cons_of_mem _ hx)
    · rw [hKeq, lstripBom_intercalate]
    · exact EModP_headStrip he (LRelP_lstripBom P hB k₀)

/-! # The master provenance theorem -/

theorem trimRel_splitNl_strip (P : Char → Bool)
    (hP : ∀ c, pyWs c = true → P c = true) (L : List (List Char))
    (hne : L ≠ []) (hnl : ∀ x ∈ L, '\n' ∉ x) :
    TrimRelP P (splitNl (stripWs (intercalateNl L))) L := by
  obtain ⟨K, hKne, hKnl, hKeq, l, hl, he⟩ := stripInter_emod P hP L hne hnl
  rw [hKeq, splitNl_intercalateNl K hKne hKnl]
  exact ⟨l, hl, he⟩

theorem trimRel_splitNl_stripBom (P : Char → Bool)
    (hP : ∀ c, pyWs c = true → P c = true)
    (hB : ∀ c, isBom c = true → P c = true) (L : List (List Char))
    (hne : L ≠ []) (hnl : ∀ x ∈ L, '\n' ∉ x) :
    TrimRelP P (splitNl (lstripBom (stripWs (intercalateNl L)))) L := by
  obtain ⟨K, hKne, hKnl, hKeq, l, hl, he⟩ := stripBomInter_emod P hP hB L hne hnl
  rw [hKeq, splitNl_intercalateNl K hKne hKnl]
  exact ⟨l, hl, he⟩

theorem fenceScan_sublist : ∀ (b : Bool) (ls : List (List Char)),
    (fenceScan b ls).Sublist ls
  | _, [] => List.Sublist.refl _
  | b, l :: t => by
    simp only [fenceScan]
    split
    · exact (fenceScan_sublist (!b) t).trans (List.sublist_cons_self ..)
    · exact List.cons_sublist_cons.mpr (fenceScan_sublist b t)

theorem preludeTrim_sublist : ∀ ls : List (List Char),
    (preludeTrim ls).Sublist ls
  | [] => List.Sublist.refl _
  | l :: t => by
    simp only [preludeTrim]
    split
    · exact (preludeTrim_sublist t).trans (List.sublist_cons_self ..)
    · exact List.Sublist.refl _

theorem postTrim_sublist (ls : List (List Char)) : (postTrim ls).Sublist ls := by
  unfold postTrim
  have h := List.reverse_sublist.mpr (List.dropWhile_sublist postCond (l := ls.reverse))
  rwa [List.reverse_reverse] at h

theorem seekStage_sublist (cl : List (List Char)) :
    (postTrim (match seekIdx 0 cl with
      | some i => if 0 < i then cl.drop i else cl
      | none => cl)).Sublist cl := by
  rcases h : seekIdx 0 cl with _ | i
  · exact postTrim_sublist cl
  · by_cases hi : 0 < i
    · simp only [hi, if_true]
      exact (postTrim_sublist _).trans (List.drop_sublist i cl)
    · simp only [hi, if_false]
      exact postTrim_sublist cl

theorem trimReady_sublist (s : List Char) :
    (trimReady s).Sublist
      (splitNl (lstripBom (stripWs (intercalateNl (fenceScan false (pyLines s)))))) := by
  show (postTrim _).Sublist _
  exact (seekStage_sublist _).trans (preludeTrim_sublist _)

theorem nlFree_trimReady (s : List Char) : ∀ x ∈ trimReady s, '\n' ∉ x :=
  fun x hx => nlFree_of_mem_splitNl _ x ((trimReady_sublist s).subset hx)

theorem trimRel_trimReady (s : List Char) :
    TrimRelP wsOrBom (trimReady s) (pyLines s) := by
  have hP : ∀ c, pyWs c = true → wsOrBom c = true := fun c hc => by
    simp [wsOrBom, hc]
  have hB : ∀ c, isBom c = true → wsOrBom c = true := fun c hc => by
    simp [wsOrBom, hc]
  rcases hL1 : fenceScan false (pyLines s) with _ | ⟨a, t⟩
  · -- everything was a fence line: the pipeline collapses to the empty list
    have hempty : trimReady s = [] := by
      show postTrim _ = []
      rw [show splitNl (crlf s) = pyLines s from rfl, hL1]
      rfl
    rw [hempty]
    exact ⟨[], List.nil_sublist _, EModP.nil⟩
  · have hnl : ∀ x ∈ a :: t, '\n' ∉ x := fun x hx =>
      nlFree_of_mem_splitNl _ x
        ((hL1 ▸ fenceScan_sublist false (pyLines s)).subset hx)
    have h1 : TrimRelP wsOrBom (trimReady s)
        (splitNl (lstripBom (stripWs (intercalateNl (a :: t))))) := by
      have := trimReady_sublist s
      rw [hL1] at this
      exact TrimRelP_of_sublist this
    have h2 : TrimRelP wsOrBom
        (splitNl (lstripBom (stripWs (intercalateNl (a :: t))))) (a :: t) :=
      trimRel_splitNl_stripBom wsOrBom hP hB (a :: t) (by simp) hnl
    exact TrimRelP_sublist_right (TrimRelP_trans h1 h2)
      (hL1 ▸ fenceScan_sublist false (pyLines s))

theorem sanitize_trimRel (p : List Char → ParseRes) (s : List Char) :
    TrimRelP wsOrBom (sanLines (sanitize_core p s)) (pyLines s) := by
  have hP : ∀ c, pyWs c = true → wsOrBom c = true := fun c hc => by
    simp [wsOrBom, hc]
  by_cases hs : s.isEmpty = true
  · rw [show sanitize_core p s = [] from by simp [sanitize_core, hs]]
    exact ⟨[], List.nil_sublist _, EModP.nil⟩
  · have hcore : sanitize_core p s = trimLoop 200 p (trimReady s) := by
      simp [sanitize_core, hs]
    obtain ⟨k, hk1, hk2, hres⟩ := trimLoop_spec 200 p (trimReady s)
    rw [hcore]
    rcases hres with hres | hres
    · rw [hres]
      exact ⟨[], List.nil_sublist _, EModP.nil⟩
    · rw [hres]
      by_cases hout : (stripWs (intercalateNl ((trimReady s).take k))).isEmpty = true
      · rw [show sanLines (stripWs (intercalateNl ((trimReady s).take k))) = [] from by
          simp only [sanLines, hout, if_true]]
        exact ⟨[], List.nil_sublist _, EModP.nil⟩
      · rw [show sanLines (stripWs (intercalateNl ((trimReady s).take k))) =
            splitNl (stripWs (intercalateNl ((trimReady s).take k))) from by
          simp [sanLines, hout]]
        have hMne : (trimReady s).take k ≠ [] := by
          rintro he
          rw [he] at hout
          exact hout rfl
        have hMnl : ∀ x ∈ (trimReady s).take k, '\n' ∉ x := fun x hx =>
          nlFree_trimReady s x ((List.take_sublist k _).subset hx)
        have h1 : TrimRelP wsOrBom
            (splitNl (stripWs (intercalateNl ((trimReady s).take k))))
            ((trimReady s).take k) :=
          trimRel_splitNl_strip wsOrBom hP _ hMne hMnl
        have h2 : TrimRelP wsOrBom ((trimReady s).take k) (pyLines s) :=
          TrimRelP_trans (TrimRelP_of_sublist (List.take_sublist k _))
            (trimRel_trimReady s)
        exact TrimRelP_trans h1 h2

theorem TrimRelP_single_single {P : Char → Bool} {a b : List Char}
    (h : TrimRelP P [a] [b]) :
    ∃ p s, b = p ++ a ++ s ∧ (∀ c ∈ p, P c = true) ∧ ∀ c ∈ s, pyWs c = true := by
  obtain ⟨l, hl, he⟩ := h
  rcases List.sublist_singleton.mp hl with rfl | rfl
  · cases he
  · cases he with
    | single hb => exact hb
    | cons hl2 hr2 => exact absurd rfl (RMod_ne_nil hr2).1

/-! # Claim C10 -/

/-- Counterexample to claim C10 as stated: a leading byte-order mark is not
whitespace, yet `sanitize_code` strips it (`lstrip('﻿')`), so the output line
`"import os"` does not occur in the input up to leading/trailing whitespace
alone. -/
theorem counterexample_C10 :
    sanitize_code c10Input = "import os".data ∧
    ¬ TrimRelP pyWs (sanLines (sanitize_code c10Input)) (pyLines c10Input) := by
  refine ⟨by decide, ?_⟩
  intro h
  rw [show sanLines (sanitize_code c10Input) = ["import os".data] from by decide,
    show pyLines c10Input = [c10Input] from by decide] at h
  obtain ⟨p, s, hdec, hp, hs⟩ := TrimRelP_single_single h
  rcases p with _ | ⟨c, p'⟩
  · rw [show c10Input = '﻿' :: "import os".data from rfl] at hdec
    simp only [List.nil_append] at hdec
    have h1 : List.head? ('﻿' :: "import os".data) = some '﻿' := rfl
    have h2 : List.head? ("import os".data ++ s) = some 'i' := rfl
    rw [hdec, h2] at h1
    exact absurd (Option.some.injEq .. ▸ h1) (by decide)
  · rw [show c10Input = '﻿' :: "import os".data from rfl] at hdec
    simp only [List.cons_append, List.append_assoc] at hdec
    have hc : c = '﻿' := (List.cons.injEq .. ▸ hdec.symm).1
    have := hp c (List.mem_cons_self ..)
    rw [hc] at this
    exact absurd this (by decide)

/-- Claim C10 (amended): every line of the sanitizer output arises, in order,
from a line of the line-ending-normalized input, where the first kept line
may additionally lose leading whitespace and byte-order marks and the last
kept line may lose trailing whitespace; sanitization never invents, edits or
reorders content.  This holds for every parser model `p`. -/
theorem claim_C10 (p : List Char → ParseRes) (s : List Char) :
    TrimRelP wsOrBom (sanLines (sanitize_core p s)) (pyLines s) :=
  sanitize_trimRel p s

/-! # Claim C2 -/

/-- Counterexample to claim C2 as stated: sanitization is not idempotent.  On
`"x\n#!a\nimport os"` the prelude seek keeps the shebang-style line `#!a`, but
a second pass's prelude trim deletes it as a leading `#` line. -/
theorem counterexample_C2 :
    sanitize_code (sanitize_code c2Input) ≠ sanitize_code c2Input := by
  decide

/-- Claim C2 (amended): applying sanitize twice need not be the identity on
the first output, but it can only trim further: every line of the second
output arises, in order, from a line of the first output, up to dropping
lines and stripping edge whitespace/byte-order marks. -/
theorem claim_C2 (p : List Char → ParseRes) (s : List Char) :
    TrimRelP wsOrBom (sanLines (sanitize_core p (sanitize_core p s)))
      (pyLines (sanitize_core p s)) :=
  sanitize_trimRel p (sanitize_core p s)
